import Mathlib

/-!
Shallow embedding of the Qwt curve renderer (qwt_plot_curve.cpp) and the
column symbol renderer (qwt_column_symbol.cpp).

Device coordinates are modelled by rationals (the C++ code computes with
doubles; every property checked here is exact arithmetic on the values the
code manipulates, not floating-point rounding).  Scale maps, the curve
fitter and the polygon clipper are external collaborators and are passed in
as function parameters.  Painter calls are modelled by returning the
geometry that would be handed to the painter; a missing painter or a
missing plot context is a boolean flag.
-/

/-- A device-space point, as QPointF. -/
abbrev PointF := ℚ × ℚ

/-- A QRectF: origin (x, y) plus width and height, exactly as Qt stores it.
Left = x, top = y, right = x + w, bottom = y + h. -/
structure RectF where
  x : ℚ
  y : ℚ
  w : ℚ
  h : ℚ
  deriving DecidableEq, Repr

namespace RectF

/-- QRectF::adjusted(d1, d2, d3, d4): moves left by d1, top by d2,
right by d3, bottom by d4 (stored as origin shift plus size change). -/
def adjusted (r : RectF) (d1 d2 d3 d4 : ℚ) : RectF :=
  ⟨r.x + d1, r.y + d2, r.w + d3 - d1, r.h + d4 - d2⟩

def left (r : RectF) : ℚ := r.x
def top (r : RectF) : ℚ := r.y
def right (r : RectF) : ℚ := r.x + r.w
def bottom (r : RectF) : ℚ := r.y + r.h
def topLeft (r : RectF) : PointF := (r.x, r.y)
def topRight (r : RectF) : PointF := (r.x + r.w, r.y)
def bottomLeft (r : RectF) : PointF := (r.x, r.y + r.h)

/-- QRectF::isValid: width and height both positive. -/
def isValid (r : RectF) : Bool := r.w > 0 && r.h > 0

end RectF

/-! ## Range resolution (qwt_plot_curve.cpp, verifyRange / drawSeries) -/

/-- qwtLim(x, lo, hi) from qwt_math.h: clamp x into [lo, hi]. -/
def qwtLim (x lo hi : Int) : Int :=
  if x < lo then lo else if x > hi then hi else x

/-- Embedding of the file-static verifyRange(size, i1, i2): returns the
resulting count together with the (by-reference) resolved indices. -/
def verifyRange (size i1 i2 : Int) : Int × Int × Int :=
  if size < 1 then (0, i1, i2)
  else
    let j1 := qwtLim i1 0 (size - 1)
    let j2 := qwtLim i2 0 (size - 1)
    let p := if j1 > j2 then (j2, j1) else (j1, j2)
    (p.2 - p.1 + 1, p.1, p.2)

/-- Embedding of QwtPlotCurve::drawSeries range handling: returns the
index range actually drawn, or none when nothing is drawn (null painter,
empty series, or non-positive resolved count). -/
def drawSeries (painterPresent : Bool) (size fromI toI : Int) :
    Option (Int × Int) :=
  if !painterPresent || size ≤ 0 then none
  else
    let t0 := if toI < 0 then size - 1 else toI
    let r := verifyRange size fromI t0
    if r.1 > 0 then some (r.2.1, r.2.2) else none

/-! ## Column symbol equality (qwt_column_symbol.cpp) -/

/-- QwtColumnSymbol::Style; the file only ever draws Box, but the enum has
further values (NoStyle, user styles). -/
inductive ColumnStyle
  | NoStyle
  | Box
  | UserStyle
  deriving DecidableEq, Repr

/-- QwtColumnSymbol::FrameStyle. -/
inductive FrameStyle
  | NoFrame
  | Plain
  | Raised
  deriving DecidableEq, Repr

/-- QPalette restricted to the three tones the renderer reads; each tone a
solid color (abstracted to a natural). -/
structure Palette where
  light : ℕ
  dark : ℕ
  window : ℕ
  deriving DecidableEq, Repr

/-- QwtColumnSymbol::PrivateData fields compared by operator==. -/
structure QwtColumnSymbol where
  style : ColumnStyle
  frameStyle : FrameStyle
  palette : Palette
  label : String
  lineWidth : Int
  deriving DecidableEq, Repr

namespace QwtColumnSymbol

/-- QwtColumnSymbol::operator==, in the comparison order of the source. -/
def beq (a b : QwtColumnSymbol) : Bool :=
  a.style == b.style &&
  a.palette == b.palette &&
  a.label == b.label &&
  a.lineWidth == b.lineWidth &&
  a.frameStyle == b.frameStyle

/-- QwtColumnSymbol::operator!=. -/
def bne (a b : QwtColumnSymbol) : Bool := !(beq a b)

end QwtColumnSymbol

/-! ## Column rect border-exclusion insets
(QwtColumnSymbol::drawBox, member) -/

/-- Border flags of one QwtDoubleInterval. -/
structure BorderFlags where
  excludeMin : Bool
  excludeMax : Bool
  deriving DecidableEq, Repr

/-- The rectangle adjustments at the head of QwtColumnSymbol::drawBox:
starting from rect.toRect(), inset one unit per excluded border. -/
def columnAdjustedRect (r : RectF) (hFlags vFlags : BorderFlags) : RectF :=
  let r1 := if hFlags.excludeMin then r.adjusted 1 0 0 0 else r
  let r2 := if hFlags.excludeMax then r1.adjusted 0 0 (-1) 0 else r1
  let r3 := if vFlags.excludeMin then r2.adjusted 0 1 0 0 else r2
  if vFlags.excludeMax then r3.adjusted 0 0 0 (-1) else r3

/-! ## Curve styles and per-style range dispatch
(QwtPlotCurve::drawCurve) -/

/-- QwtPlotCurve::CurveStyle. -/
inductive CurveStyle
  | NoCurve
  | Lines
  | Sticks
  | Steps
  | Dots
  deriving DecidableEq, Repr

/-- Embedding of the range handling of QwtPlotCurve::drawCurve: which
inclusive index range the selected per-style draw routine receives, or
none when no routine is called (NoCurve / default).  Only the Lines case
replaces the range by [0, size-1], and only when Fitted is set. -/
def drawCurveRange (style : CurveStyle) (fitted : Bool)
    (size fromI toI : Int) : Option (Int × Int) :=
  match style with
  | .Lines => some (if fitted then (0, size - 1) else (fromI, toI))
  | .Sticks => some (fromI, toI)
  | .Steps => some (fromI, toI)
  | .Dots => some (fromI, toI)
  | .NoCurve => none

/-! ## Transformed sample ranges, drawLines, fill
(QwtPlotCurve::drawLines / fillCurve / closePolyline) -/

/-- The device polyline built by the transform loops: samples fromI..toI
mapped through the two scale maps. -/
def transformedSamples (xMap yMap : ℚ → ℚ) (samples : List PointF)
    (fromI toI : ℕ) : List PointF :=
  ((samples.drop fromI).take (toI - fromI + 1)).map
    fun s => (xMap s.1, yMap s.2)

/-- Embedding of QwtPlotCurve::drawLines: returns the polyline handed to
QwtPainter::drawPolyline, or none when size = to - from + 1 is not
positive.  The curve fitter is an optional external collaborator (a null
QwtCurveFitter pointer is modelled by none); fitting runs only when the
Fitted attribute is set AND the fitter pointer is non-null.  The clipper
(QwtClipper::clipPolygonF against the painter window) is an external
collaborator applied when ClipPolygons is set. -/
def drawLines (xMap yMap : ℚ → ℚ) (samples : List PointF)
    (fitted : Bool) (fitter : Option (List PointF → List PointF))
    (clipOn : Bool) (clipper : List PointF → List PointF)
    (fromI toI : ℕ) : Option (List PointF) :=
  if toI < fromI then none
  else
    let pts := transformedSamples xMap yMap samples fromI toI
    let fitresult :=
      match fitter with
      | some f => if fitted then f pts else pts
      | none => pts
    some (if clipOn then clipper fitresult else fitresult)

/-- Embedding of QwtPlotCurve::closePolyline: a polygon of fewer than two
points is returned unchanged; otherwise two baseline-projected vertices
are appended (vertical orientation: both at device y = yMap(reference),
x from the last resp. first point; horizontal: both at device
x = xMap(reference), y from the last resp. first point). -/
def closePolyline (orientVertical : Bool) (xMap yMap : ℚ → ℚ)
    (reference : ℚ) : List PointF → List PointF
  | [] => []
  | [p] => [p]
  | p :: q :: rest =>
    let lst := (q :: rest).getLastD q
    if orientVertical then
      let refY := yMap reference
      (p :: q :: rest) ++ [(lst.1, refY), (p.1, refY)]
    else
      let refX := xMap reference
      (p :: q :: rest) ++ [(refX, lst.2), (refX, p.2)]

/-- Embedding of QwtPlotCurve::fillCurve: no brush or a closed polygon of
at most two points means no fill; otherwise the closed polygon is filled. -/
def fillCurve (brushSet : Bool) (orientVertical : Bool) (xMap yMap : ℚ → ℚ)
    (reference : ℚ) (polygon : List PointF) : Option (List PointF) :=
  if !brushSet then none
  else
    let closed := closePolyline orientVertical xMap yMap reference polygon
    if closed.length ≤ 2 then none else some closed

/-! ## Legend symbol scaling (QwtPlotCurve::drawLegendIdentifier) -/

/-- qRound from qglobal.h: round half away from zero (the cast to int
truncates toward zero). -/
def qRound (x : ℚ) : Int :=
  if 0 ≤ x then ⌊x + 1 / 2⌋ else ⌈x - 1 / 2⌉

/-- Embedding of the symbol-size scaling in the LegendShowSymbol branch of
QwtPlotCurve::drawLegendIdentifier.  First branch: if the rect is narrower
than the symbol, the width is clamped to the rect width and the height is
divided by ratio = symW / rectW.  Second branch: if the rect is shorter
than the (possibly updated) symbol height, the height is clamped to the
rect height and the width is divided by ratio = symW / rectW, the ratio
being recomputed from the WIDTHS, exactly as the source does. -/
def legendSymbolSize (rectW rectH symW symH : ℚ) : ℚ × ℚ :=
  let s1 : ℚ × ℚ :=
    if rectW < symW then
      let ratio := symW / rectW
      (rectW, ((qRound (symH / ratio) : ℤ) : ℚ))
    else (symW, symH)
  if rectH < s1.2 then
    let ratio := s1.1 / rectW
    (((qRound (s1.1 / ratio) : ℤ) : ℚ), rectH)
  else s1

/-! ## Steps staircase (QwtPlotCurve::drawSteps) -/

/-- The corner vertex written between two consecutive transformed samples
p0 (previous) and p (current): inverted takes x from the previous and y
from the current, non-inverted the other way around. -/
def stepCorner (inverted : Bool) (p0 p : PointF) : PointF :=
  if inverted then (p0.1, p.2) else (p.1, p0.2)

/-- The tail of the staircase loop of drawSteps: given the previously
written sample vertex p0, each further sample contributes its corner
vertex followed by the sample vertex itself. -/
def stepsSuffix (inverted : Bool) : PointF → List PointF → List PointF
  | _, [] => []
  | p0, p :: rest => stepCorner inverted p0 p :: p :: stepsSuffix inverted p rest

/-- The staircase polyline drawSteps builds into its point array for a
list of transformed samples. -/
def stepsPolygonOf (inverted : Bool) : List PointF → List PointF
  | [] => []
  | p :: rest => p :: stepsSuffix inverted p rest

/-- The inverted flag of drawSteps: orientation() == Qt::Vertical, negated
when the Inverted curve attribute is set. -/
def stepsInverted (orientVertical invertedAttr : Bool) : Bool :=
  if invertedAttr then !orientVertical else orientVertical

/-- Embedding of QwtPlotCurve::drawSteps: the staircase polyline handed to
the clipper / painter (the ClipPolygons clipping that may follow is an
external collaborator, as in drawLines). -/
def drawSteps (xMap yMap : ℚ → ℚ) (samples : List PointF)
    (orientVertical invertedAttr : Bool) (fromI toI : ℕ) : List PointF :=
  stepsPolygonOf (stepsInverted orientVertical invertedAttr)
    (transformedSamples xMap yMap samples fromI toI)

/-! ## Nearest point query (QwtPlotCurve::closestPoint) -/

/-- qwtSqr from qwt_math.h. -/
def qwtSqr (x : ℚ) : ℚ := x * x

/-- The squared device-space distance computed inside the scan loop of
closestPoint. -/
def sqDist (xMap yMap : ℚ → ℚ) (pos : ℚ × ℚ) (s : PointF) : ℚ :=
  qwtSqr (xMap s.1 - pos.1) + qwtSqr (yMap s.2 - pos.2)

/-- The scan loop of QwtPlotCurve::closestPoint: i is the loop counter,
index / dmin the running accumulators (index starts at -1, dmin at the
literal 1.0e10); an update happens only on a strict decrease. -/
def closestGo (xMap yMap : ℚ → ℚ) (pos : ℚ × ℚ) :
    List PointF → ℕ → Int → ℚ → Int × ℚ
  | [], _, index, dmin => (index, dmin)
  | s :: rest, i, index, dmin =>
    let f := sqDist xMap yMap pos s
    if f < dmin then closestGo xMap yMap pos rest (i + 1) (i : Int) f
    else closestGo xMap yMap pos rest (i + 1) index dmin

/-- Embedding of QwtPlotCurve::closestPoint.  The first component is the
returned index; the second is the value the scan leaves in dmin, recorded
iff the optional dist output was supplied and the scan ran (the source
then stores sqrt(dmin) through the pointer; the model carries the
radicand, which determines the written distance).  A missing plot context
or an empty series returns -1 with the output untouched (none). -/
def closestPoint (plotPresent : Bool) (xMap yMap : ℚ → ℚ)
    (samples : List PointF) (pos : ℚ × ℚ) (distSupplied : Bool) :
    Int × Option ℚ :=
  if !plotPresent || samples.length ≤ 0 then (-1, none)
  else
    let r := closestGo xMap yMap pos samples 0 (-1) (10 ^ 10)
    (r.1, if distSupplied then some r.2 else none)

/-! ## Column box rendering (qwt_column_symbol.cpp, file-static drawBox) -/

/-- The three palette tones the renderer reads. -/
inductive Tone
  | light
  | dark
  | window
  deriving DecidableEq, Repr

/-- Primitive painter calls emitted by the column renderers.  A polygon
built from an outer rectangle with an optional inner rectangle subtracted
(the ring) keeps the external polygon-boolean collaborator abstract. -/
inductive DrawOp
  | setPenColor (t : Tone)
  | setPenNone
  | setBrush (t : Tone)
  | drawLine (p q : PointF)
  | drawPolygonRing (outer : RectF) (inner : Option RectF)
  | fillRect (r : RectF) (t : Tone)
  deriving DecidableEq, Repr

/-- Embedding of the file-static drawBox(p, rect, pal, lw) used for the
Plain frame style: the list of painter calls it performs. -/
def drawBoxStatic (rect : RectF) (lw : ℚ) : List DrawOp :=
  if lw > 0 then
    if rect.w = 0 then
      [.setPenColor .dark, .drawLine rect.topLeft rect.bottomLeft]
    else if rect.h = 0 then
      [.setPenColor .dark, .drawLine rect.topLeft rect.topRight]
    else
      let lw1 := min lw (rect.h / 2 - 1)
      let lw2 := min lw1 (rect.w / 2 - 1)
      let outerRect := rect.adjusted 0 0 1 1
      let inner :=
        if outerRect.w > 2 * lw2 && outerRect.h > 2 * lw2 then
          some (outerRect.adjusted lw2 lw2 (-lw2) (-lw2))
        else none
      let windowRect := rect.adjusted lw2 lw2 (-lw2 + 1) (-lw2 + 1)
      [.setPenNone, .setBrush .dark, .drawPolygonRing outerRect inner] ++
        (if windowRect.isValid then [.fillRect windowRect .window] else [])
  else
    let windowRect := rect.adjusted lw lw (-lw + 1) (-lw + 1)
    if windowRect.isValid then [.fillRect windowRect .window] else []

/-! ### Theorems -/

/-- C1: drawSeries with series size s and range [from, to]: nothing is
drawn for s = 0 or a null painter; otherwise a negative to becomes s - 1,
both indices are clamped into [0, s-1] and swapped if inverted, and the
resolved count to - from + 1 is positive (so the non-positive-count guard
never suppresses drawing once size ≥ 1). -/
theorem drawSeries_range_resolution (painter : Bool) (size fromI toI : Int) :
    ((painter = false ∨ size ≤ 0) →
      drawSeries painter size fromI toI = none) ∧
    (painter = true → 1 ≤ size →
      (let t0 := if toI < 0 then size - 1 else toI
       let a := max 0 (min fromI (size - 1))
       let b := max 0 (min t0 (size - 1))
       drawSeries painter size fromI toI = some (min a b, max a b) ∧
       0 ≤ min a b ∧ max a b ≤ size - 1 ∧ 0 < max a b - min a b + 1)) := by
  constructor
  · rintro (rfl | hs)
    · simp [drawSeries]
    · simp [drawSeries, hs]
  · rintro rfl hs
    have hsize : ¬ size ≤ 0 := by omega
    set t0 := if toI < 0 then size - 1 else toI with ht0
    have hclamp : ∀ v : Int, qwtLim v 0 (size - 1) = max 0 (min v (size - 1)) := by
      intro v
      unfold qwtLim
      split <;> rename_i h1
      · omega
      · split <;> rename_i h2 <;> omega
    have ha := hclamp fromI
    have hb := hclamp t0
    set a := max 0 (min fromI (size - 1)) with hadef
    set b := max 0 (min t0 (size - 1)) with hbdef
    have ha0 : 0 ≤ a := le_max_left _ _
    have hb0 : 0 ≤ b := le_max_left _ _
    have ha1 : a ≤ size - 1 := by
      rw [hadef]; exact max_le (by omega) (min_le_right _ _)
    have hb1 : b ≤ size - 1 := by
      rw [hbdef]; exact max_le (by omega) (min_le_right _ _)
    have hvr : verifyRange size fromI t0 =
        (max a b - min a b + 1, min a b, max a b) := by
      unfold verifyRange
      rw [if_neg (by omega)]
      simp only [ha, hb, ← hadef, ← hbdef]
      split <;> rename_i hab
      · simp only [Prod.mk.injEq]
        refine ⟨by omega, by omega, by omega⟩
      · simp only [Prod.mk.injEq]
        refine ⟨by omega, by omega, by omega⟩
    have hcount : 0 < max a b - min a b + 1 := by
      have := min_le_max (a := a) (b := b); omega
    refine ⟨?_, ?_, ?_, hcount⟩
    · unfold drawSeries
      rw [if_neg (by simp [hsize])]
      simp only [← ht0, hvr]
      rw [if_pos hcount]
    · exact le_min ha0 hb0
    · exact max_le ha1 hb1

/-- C1 witness: a concrete inverted, out-of-bounds range on a series of
size 4 with a painter present. -/
theorem drawSeries_range_resolution_witness :
    drawSeries true 4 9 (-1) = some (3, 3) := by
  have h := (drawSeries_range_resolution true 4 9 (-1)).2 rfl (by decide)
  simpa using h.1

/-- C7: two column symbols compare equal via operator== iff style, frame
style, palette, line width and label are all equal; changing any single
one of the five fields breaks equality; operator!= is the negation. -/
theorem columnSymbol_eq_iff (a b : QwtColumnSymbol) :
    (QwtColumnSymbol.beq a b = true ↔
      (a.style = b.style ∧ a.frameStyle = b.frameStyle ∧
       a.palette = b.palette ∧ a.lineWidth = b.lineWidth ∧
       a.label = b.label)) ∧
    (QwtColumnSymbol.bne a b = !(QwtColumnSymbol.beq a b)) ∧
    (∀ s, s ≠ a.style →
      QwtColumnSymbol.beq a { a with style := s } = false) ∧
    (∀ f, f ≠ a.frameStyle →
      QwtColumnSymbol.beq a { a with frameStyle := f } = false) ∧
    (∀ p, p ≠ a.palette →
      QwtColumnSymbol.beq a { a with palette := p } = false) ∧
    (∀ w, w ≠ a.lineWidth →
      QwtColumnSymbol.beq a { a with lineWidth := w } = false) ∧
    (∀ l, l ≠ a.label →
      QwtColumnSymbol.beq a { a with label := l } = false) := by
  refine ⟨?_, rfl, ?_, ?_, ?_, ?_, ?_⟩
  · unfold QwtColumnSymbol.beq
    simp only [Bool.and_eq_true, beq_iff_eq]
    tauto
  all_goals
    intro v hv
    unfold QwtColumnSymbol.beq
    simp only [Bool.and_eq_false_iff, beq_eq_false_iff_ne, ne_eq]
    tauto

/-- C7 witness: two concrete equal symbols, and a line-width change
breaking equality. -/
theorem columnSymbol_eq_iff_witness :
    QwtColumnSymbol.beq
      ⟨ColumnStyle.Box, FrameStyle.Raised, ⟨1, 2, 3⟩, "a", 2⟩
      ⟨ColumnStyle.Box, FrameStyle.Raised, ⟨1, 2, 3⟩, "a", 2⟩ = true ∧
    QwtColumnSymbol.beq
      ⟨ColumnStyle.Box, FrameStyle.Raised, ⟨1, 2, 3⟩, "a", 2⟩
      ⟨ColumnStyle.Box, FrameStyle.Raised, ⟨1, 2, 3⟩, "a", 7⟩ = false := by
  constructor
  · exact (columnSymbol_eq_iff
      ⟨ColumnStyle.Box, FrameStyle.Raised, ⟨1, 2, 3⟩, "a", 2⟩
      ⟨ColumnStyle.Box, FrameStyle.Raised, ⟨1, 2, 3⟩, "a", 2⟩).1.mpr
      ⟨rfl, rfl, rfl, rfl, rfl⟩
  · exact ((columnSymbol_eq_iff
      ⟨ColumnStyle.Box, FrameStyle.Raised, ⟨1, 2, 3⟩, "a", 2⟩
      ⟨ColumnStyle.Box, FrameStyle.Raised, ⟨1, 2, 3⟩, "a", 2⟩).2.2.2.2.2.1)
      7 (by decide)

/-- C8: each border-exclusion flag insets exactly its own edge of the
column rectangle by one unit: horizontal exclude-min the left edge,
horizontal exclude-max the right edge, vertical exclude-min the top edge,
vertical exclude-max the bottom edge.  In particular horizontal
exclude-min plus vertical exclude-max insets left and bottom only. -/
theorem columnAdjustedRect_edges (r : RectF) (hFlags vFlags : BorderFlags) :
    (columnAdjustedRect r hFlags vFlags).left =
      r.left + (if hFlags.excludeMin then 1 else 0) ∧
    (columnAdjustedRect r hFlags vFlags).right =
      r.right - (if hFlags.excludeMax then 1 else 0) ∧
    (columnAdjustedRect r hFlags vFlags).top =
      r.top + (if vFlags.excludeMin then 1 else 0) ∧
    (columnAdjustedRect r hFlags vFlags).bottom =
      r.bottom - (if vFlags.excludeMax then 1 else 0) := by
  obtain ⟨hmin, hmax⟩ := hFlags
  obtain ⟨vmin, vmax⟩ := vFlags
  cases hmin <;> cases hmax <;> cases vmin <;> cases vmax <;>
    refine ⟨?_, ?_, ?_, ?_⟩ <;>
    simp [columnAdjustedRect, RectF.adjusted, RectF.left, RectF.right,
      RectF.top, RectF.bottom] <;> ring

/-- C3: closePolyline on exactly 2 points with vertical orientation and
reference R yields 4 vertices, the appended two at device
y = yMap.transform(R) with x taken from the last and first input points;
polygons of fewer than 2 points are returned unchanged; fillCurve fills
nothing when the closed polygon has at most 2 vertices. -/
theorem closePolyline_two_points_vertical (xMap yMap : ℚ → ℚ)
    (reference : ℚ) (p1 p2 : PointF) :
    closePolyline true xMap yMap reference [p1, p2] =
      [p1, p2, (p2.1, yMap reference), (p1.1, yMap reference)] ∧
    (∀ (o : Bool) (poly : List PointF), poly.length < 2 →
      closePolyline o xMap yMap reference poly = poly) ∧
    (∀ (brushSet o : Bool) (poly : List PointF),
      (closePolyline o xMap yMap reference poly).length ≤ 2 →
      fillCurve brushSet o xMap yMap reference poly = none) := by
  refine ⟨by simp [closePolyline], ?_, ?_⟩
  · intro o poly h
    match poly with
    | [] => rfl
    | [p] => rfl
    | p :: q :: rest => exact absurd h (by simp)
  · intro brushSet o poly h
    cases brushSet <;> simp [fillCurve, h]

/-- C3 witness: concrete two-point, one-point and degenerate-fill cases
with identity scale maps and reference 3. -/
theorem closePolyline_two_points_vertical_witness :
    closePolyline true id id 3 [((0 : ℚ), (0 : ℚ)), ((1 : ℚ), (2 : ℚ))] =
      [(0, 0), (1, 2), (1, 3), (0, 3)] ∧
    closePolyline false id id 3 [((5 : ℚ), (6 : ℚ))] = [(5, 6)] ∧
    fillCurve true true id id 3 [((0 : ℚ), (0 : ℚ))] = none := by
  have h := closePolyline_two_points_vertical (id : ℚ → ℚ) id 3 (0, 0) (1, 2)
  exact ⟨h.1, h.2.1 false [(5, 6)] (by decide),
    h.2.2 true true [(0, 0)] (by decide)⟩

/-- C4 counterexample: with the Sticks style and the Fitted attribute
enabled on a series of size 3, drawCurve passes the requested range
[1, 1] through unchanged instead of the full range [0, 2]. -/
theorem drawCurveRange_fitted_counterexample :
    drawCurveRange CurveStyle.Sticks true 3 1 1 = some (1, 1) ∧
    drawCurveRange CurveStyle.Sticks true 3 1 1 ≠ some (0, 2) := by
  decide

/-- C4 amended: with the Lines style and the Fitted attribute enabled,
the drawn curve is computed from the entire series, indices 0 through
size - 1, ignoring the requested range. -/
theorem drawCurveRange_lines_fitted_full (size fromI toI fromJ toJ : Int) :
    drawCurveRange CurveStyle.Lines true size fromI toI =
      some (0, size - 1) ∧
    drawCurveRange CurveStyle.Lines true size fromI toI =
      drawCurveRange CurveStyle.Lines true size fromJ toJ :=
  ⟨rfl, rfl⟩

/-- C10: with the Fitted attribute set but a null curve fitter
(setCurveFitter(NULL)), drawLines skips the fitting step and draws the
unfitted transformed polyline; drawing is total and never consults a
fitter object. -/
theorem drawLines_null_fitter_skips_fit (xMap yMap : ℚ → ℚ)
    (samples : List PointF) (fitted clipOn : Bool)
    (clipper : List PointF → List PointF) (fromI toI : ℕ)
    (h : fromI ≤ toI) :
    drawLines xMap yMap samples fitted none clipOn clipper fromI toI =
      some (if clipOn then
              clipper (transformedSamples xMap yMap samples fromI toI)
            else transformedSamples xMap yMap samples fromI toI) := by
  unfold drawLines
  rw [if_neg (by omega)]

/-- C10 witness: two samples, Fitted set, null fitter, no clipping. -/
theorem drawLines_null_fitter_skips_fit_witness :
    (0 : ℕ) ≤ 1 ∧
    drawLines id id [((0 : ℚ), (0 : ℚ)), ((1 : ℚ), (1 : ℚ))]
        true none false id 0 1 =
      some (if false then
              id (transformedSamples id id
                [((0 : ℚ), (0 : ℚ)), ((1 : ℚ), (1 : ℚ))] 0 1)
            else transformedSamples id id
              [((0 : ℚ), (0 : ℚ)), ((1 : ℚ), (1 : ℚ))] 0 1) :=
  ⟨by decide, drawLines_null_fitter_skips_fit id id
    [((0 : ℚ), (0 : ℚ)), ((1 : ℚ), (1 : ℚ))] true false id 0 1 (by decide)⟩

/-- C6: the legend symbol scaling does NOT preserve the aspect ratio when
only the height overflows the legend rectangle: for a 10 x 10 rectangle
and a 4 x 20 symbol the code produces 10 x 10 (the width is scaled UP
from 4 to 10, because the second branch recomputes its ratio from the
widths instead of the heights), while an aspect-preserving scale-down
would give 2 x 10; 10/10 differs from the original aspect 4/20. -/
theorem legendSymbolSize_no_aspect_preservation :
    legendSymbolSize 10 10 4 20 = (10, 10) ∧ (10 : ℚ) / 10 ≠ 4 / 20 := by
  constructor
  · norm_num [legendSymbolSize, qRound]
  · norm_num

/-- C9 amended: for a POSITIVE line width, the Plain-frame box renderer on
a rectangle of width 0 emits exactly one line, in the dark palette tone,
from the top-left to the bottom-left corner (the left edge), preceded only
by the pen change, with no polygon or fill emitted. -/
theorem drawBoxStatic_zero_width_line (rect : RectF) (lw : ℚ)
    (hlw : 0 < lw) (hw : rect.w = 0) :
    drawBoxStatic rect lw =
      [DrawOp.setPenColor Tone.dark,
       DrawOp.drawLine (rect.x, rect.y) (rect.x, rect.y + rect.h)] := by
  unfold drawBoxStatic
  rw [if_pos hlw, if_pos hw]
  rfl

/-- C9 witness: width-0 rectangle of height 5, line width 2. -/
theorem drawBoxStatic_zero_width_line_witness :
    (0 : ℚ) < 2 ∧ (⟨0, 0, 0, 5⟩ : RectF).w = 0 ∧
    drawBoxStatic ⟨0, 0, 0, 5⟩ 2 =
      [DrawOp.setPenColor Tone.dark,
       DrawOp.drawLine ((0 : ℚ), (0 : ℚ)) ((0 : ℚ), (0 : ℚ) + (5 : ℚ))] :=
  ⟨by norm_num, rfl, drawBoxStatic_zero_width_line ⟨0, 0, 0, 5⟩ 2 (by norm_num) rfl⟩

/-- C9 counterexample: with line width 0 (a legal configuration via
setLineWidth) a width-0 rectangle draws no line at all: the lw > 0 branch
is skipped and only the window-tone fill of the one-unit-wide adjusted
rectangle is emitted. -/
theorem drawBoxStatic_zero_width_counterexample :
    drawBoxStatic ⟨0, 0, 0, 5⟩ 0 =
      [DrawOp.fillRect ⟨0, 0, 1, 6⟩ Tone.window] ∧
    (drawBoxStatic ⟨0, 0, 0, 5⟩ 0).all
      (fun op => match op with
        | DrawOp.drawLine _ _ => false
        | _ => true) = true := by
  constructor
  · norm_num [drawBoxStatic, RectF.adjusted, RectF.isValid]
  · norm_num [drawBoxStatic, RectF.adjusted, RectF.isValid, List.all]

/-- Unfolding equation of the staircase construction: the head sample, its
corner against the next sample, then the staircase of the remaining
samples. -/
theorem stepsPolygonOf_cons_cons (inv : Bool) (p q : PointF)
    (rest : List PointF) :
    stepsPolygonOf inv (p :: q :: rest) =
      p :: stepCorner inv p q :: stepsPolygonOf inv (q :: rest) := rfl

/-- Structure of the staircase polyline over any nonempty transformed
sample list: 2n - 1 vertices, samples at even positions, corners at odd
positions. -/
theorem stepsPolygonOf_spec (inv : Bool) (ps : List PointF) (hps : ps ≠ []) :
    (stepsPolygonOf inv ps).length = 2 * ps.length - 1 ∧
    (∀ k, k < ps.length →
      (stepsPolygonOf inv ps).getD (2 * k) (0, 0) = ps.getD k (0, 0)) ∧
    (∀ k, k + 1 < ps.length →
      (stepsPolygonOf inv ps).getD (2 * k + 1) (0, 0) =
        stepCorner inv (ps.getD k (0, 0)) (ps.getD (k + 1) (0, 0))) := by
  induction ps with
  | nil => exact absurd rfl hps
  | cons p rest ih =>
    cases rest with
    | nil =>
      refine ⟨rfl, ?_, ?_⟩
      · intro k hk
        have hk0 : k = 0 := by simpa using hk
        subst hk0
        rfl
      · intro k hk
        exact absurd hk (by simp)
    | cons q rest2 =>
      obtain ⟨ihl, ih2, ih3⟩ := ih (by simp)
      refine ⟨?_, ?_, ?_⟩
      · rw [stepsPolygonOf_cons_cons]
        simp only [List.length_cons, ihl, List.length_cons]
        omega
      · intro k hk
        match k with
        | 0 => rfl
        | k + 1 =>
          rw [stepsPolygonOf_cons_cons]
          have h2k : 2 * (k + 1) = 2 * k + 1 + 1 := by ring
          rw [h2k, List.getD_cons_succ, List.getD_cons_succ,
            List.getD_cons_succ]
          exact ih2 k (by simpa using hk)
      · intro k hk
        match k with
        | 0 => rfl
        | k + 1 =>
          rw [stepsPolygonOf_cons_cons]
          have h2k : 2 * (k + 1) + 1 = 2 * k + 1 + 1 + 1 := by ring
          rw [h2k, List.getD_cons_succ, List.getD_cons_succ,
            List.getD_cons_succ, List.getD_cons_succ]
          exact ih3 k (by simpa using hk)

/-- Length of the transformed sample range for an in-bounds [from, to]. -/
theorem transformedSamples_length (xMap yMap : ℚ → ℚ)
    (samples : List PointF) (fromI toI : ℕ)
    (h : toI < samples.length) (hft : fromI ≤ toI) :
    (transformedSamples xMap yMap samples fromI toI).length =
      toI - fromI + 1 := by
  unfold transformedSamples
  rw [List.length_map, List.length_take, List.length_drop]
  omega

/-- Entries of the transformed sample range for an in-bounds [from, to]. -/
theorem transformedSamples_getD (xMap yMap : ℚ → ℚ)
    (samples : List PointF) (fromI toI k : ℕ)
    (h : toI < samples.length) (hk : fromI + k ≤ toI) :
    (transformedSamples xMap yMap samples fromI toI).getD k (0, 0) =
      ((xMap (samples.getD (fromI + k) (0, 0)).1,
        yMap (samples.getD (fromI + k) (0, 0)).2) : PointF) := by
  unfold transformedSamples
  rw [List.getD_eq_getElem?_getD, List.getElem?_map, List.getElem?_take,
    if_pos (by omega), List.getElem?_drop,
    List.getElem?_eq_getElem (by omega : fromI + k < samples.length)]
  rw [List.getD_eq_getElem?_getD,
    List.getElem?_eq_getElem (by omega : fromI + k < samples.length)]
  rfl

/-- C2: for a resolved range with to > from, drawSteps builds a staircase
polyline of exactly 2*(to-from)+1 vertices: each even position 2k holds
the transformed sample from+k, each odd position 2k+1 holds the corner
vertex combining one coordinate of that sample with the orthogonal
coordinate of the next, the axis choice being orientation XOR the
Inverted attribute. -/
theorem drawSteps_staircase (xMap yMap : ℚ → ℚ) (samples : List PointF)
    (orientVertical invertedAttr : Bool) (fromI toI : ℕ)
    (h1 : fromI < toI) (h2 : toI < samples.length) :
    (drawSteps xMap yMap samples orientVertical invertedAttr
        fromI toI).length = 2 * (toI - fromI) + 1 ∧
    stepsInverted orientVertical invertedAttr =
      Bool.xor orientVertical invertedAttr ∧
    (∀ k, fromI + k ≤ toI →
      (drawSteps xMap yMap samples orientVertical invertedAttr
          fromI toI).getD (2 * k) (0, 0) =
        ((xMap (samples.getD (fromI + k) (0, 0)).1,
          yMap (samples.getD (fromI + k) (0, 0)).2) : PointF)) ∧
    (∀ k, fromI + k < toI →
      (drawSteps xMap yMap samples orientVertical invertedAttr
          fromI toI).getD (2 * k + 1) (0, 0) =
        stepCorner (stepsInverted orientVertical invertedAttr)
          ((xMap (samples.getD (fromI + k) (0, 0)).1,
            yMap (samples.getD (fromI + k) (0, 0)).2) : PointF)
          ((xMap (samples.getD (fromI + k + 1) (0, 0)).1,
            yMap (samples.getD (fromI + k + 1) (0, 0)).2) : PointF)) := by
  have hlen := transformedSamples_length xMap yMap samples fromI toI h2
    (le_of_lt h1)
  have hne : transformedSamples xMap yMap samples fromI toI ≠ [] := by
    intro hcon
    rw [hcon] at hlen
    simp at hlen
  obtain ⟨s1, s2, s3⟩ := stepsPolygonOf_spec
    (stepsInverted orientVertical invertedAttr)
    (transformedSamples xMap yMap samples fromI toI) hne
  refine ⟨?_, ?_, ?_, ?_⟩
  · unfold drawSteps
    rw [s1, hlen]
    omega
  · cases orientVertical <;> cases invertedAttr <;> rfl
  · intro k hk
    unfold drawSteps
    rw [s2 k (by omega), transformedSamples_getD xMap yMap samples
      fromI toI k h2 hk]
  · intro k hk
    unfold drawSteps
    rw [s3 k (by omega), transformedSamples_getD xMap yMap samples
      fromI toI k h2 (by omega), transformedSamples_getD xMap yMap samples
      fromI toI (k + 1) h2 (by omega)]
    have : fromI + (k + 1) = fromI + k + 1 := by ring
    rw [this]

/-- C2 witness: three samples, full range [0, 2], horizontal orientation,
Inverted off: a 5-vertex staircase. -/
theorem drawSteps_staircase_witness :
    (0 : ℕ) < 2 ∧ (2 : ℕ) < 3 ∧
    (drawSteps id id [((0 : ℚ), (0 : ℚ)), ((1 : ℚ), (2 : ℚ)),
        ((3 : ℚ), (1 : ℚ))] false false 0 2).length = 2 * (2 - 0) + 1 :=
  ⟨by decide, by decide,
    (drawSteps_staircase id id [((0 : ℚ), (0 : ℚ)), ((1 : ℚ), (2 : ℚ)),
      ((3 : ℚ), (1 : ℚ))] false false 0 2 (by decide) (by decide)).1⟩

/-- A left fold with min never exceeds its initial accumulator. -/
theorem foldl_min_le_init (d : ℚ) (l : List ℚ) : l.foldl min d ≤ d := by
  induction l generalizing d with
  | nil => exact le_refl d
  | cons x xs ih =>
    rw [List.foldl_cons]
    exact le_trans (ih (min d x)) (min_le_left d x)

/-- A left fold with min is bounded by every list element. -/
theorem foldl_min_le_mem (l : List ℚ) (x : ℚ) (hx : x ∈ l) :
    ∀ d, l.foldl min d ≤ x := by
  induction l with
  | nil => cases hx
  | cons y ys ih =>
    intro d
    rw [List.foldl_cons]
    rcases List.mem_cons.mp hx with rfl | h
    · exact le_trans (foldl_min_le_init (min d x) ys) (min_le_right d x)
    · exact ih h (min d y)

/-- A left fold with min over elements all at least d stays at d. -/
theorem foldl_min_of_le (l : List ℚ) :
    ∀ d, (∀ x ∈ l, d ≤ x) → l.foldl min d = d := by
  induction l with
  | nil => intro d _; rfl
  | cons y ys ih =>
    intro d h
    rw [List.foldl_cons, min_eq_left (h y (List.mem_cons_self y ys))]
    exact ih d fun x hx => h x (List.mem_cons_of_mem _ hx)

/-- Characterization of the closestPoint scan loop: the final dmin is the
min-fold of the squared distances over the remaining samples; the index
accumulator survives iff no sample beats dmin strictly; otherwise the
returned index is the offset of the first sample attaining the final dmin,
and every earlier sample is strictly farther. -/
theorem closestGo_spec (xMap yMap : ℚ → ℚ) (pos : ℚ × ℚ)
    (l : List PointF) :
    ∀ (i : ℕ) (index : Int) (dmin : ℚ),
      (closestGo xMap yMap pos l i index dmin).2 =
        (l.map (sqDist xMap yMap pos)).foldl min dmin ∧
      ((∀ s ∈ l, dmin ≤ sqDist xMap yMap pos s) →
        (closestGo xMap yMap pos l i index dmin).1 = index) ∧
      ((∃ s ∈ l, sqDist xMap yMap pos s < dmin) →
        ∃ j, j < l.length ∧
          (closestGo xMap yMap pos l i index dmin).1 = ((i + j : ℕ) : Int) ∧
          (closestGo xMap yMap pos l i index dmin).2 =
            sqDist xMap yMap pos (l.getD j (0, 0)) ∧
          ∀ m, m < j →
            (closestGo xMap yMap pos l i index dmin).2 <
              sqDist xMap yMap pos (l.getD m (0, 0))) := by
  induction l with
  | nil =>
    intro i index dmin
    refine ⟨rfl, fun _ => rfl, ?_⟩
    rintro ⟨s, hs, -⟩
    cases hs
  | cons s rest ih =>
    intro i index dmin
    by_cases hf : sqDist xMap yMap pos s < dmin
    · have hgo : closestGo xMap yMap pos (s :: rest) i index dmin =
          closestGo xMap yMap pos rest (i + 1) (i : Int)
            (sqDist xMap yMap pos s) := by
        simp [closestGo, hf]
      obtain ⟨ih1, ih2, ih3⟩ := ih (i + 1) (i : Int) (sqDist xMap yMap pos s)
      refine ⟨?_, ?_, ?_⟩
      · rw [hgo, ih1, List.map_cons, List.foldl_cons,
          min_eq_right (le_of_lt hf)]
      · intro hall
        exact absurd hf (not_lt.mpr (hall s (List.mem_cons_self s rest)))
      · intro _
        by_cases hrest : ∀ x ∈ rest,
            sqDist xMap yMap pos s ≤ sqDist xMap yMap pos x
        · refine ⟨0, by simp, ?_, ?_, ?_⟩
          · rw [hgo, ih2 hrest]
            simp
          · rw [hgo, ih1, List.getD_cons_zero]
            apply foldl_min_of_le
            intro y hy
            obtain ⟨x, hx, rfl⟩ := List.mem_map.mp hy
            exact hrest x hx
          · intro m hm
            exact absurd hm (by omega)
        · push_neg at hrest
          obtain ⟨x, hxmem, hxlt⟩ := hrest
          obtain ⟨j, hj, hj1, hj2, hj3⟩ := ih3 ⟨x, hxmem, hxlt⟩
          refine ⟨j + 1, by simpa using Nat.succ_lt_succ hj, ?_, ?_, ?_⟩
          · have hic : i + 1 + j = i + (j + 1) := by omega
            rw [hgo, hj1, hic]
          · rw [hgo, List.getD_cons_succ]
            exact hj2
          · intro m hm
            match m with
            | 0 =>
              rw [hgo, ih1, List.getD_cons_zero]
              calc (rest.map (sqDist xMap yMap pos)).foldl min
                    (sqDist xMap yMap pos s)
                  ≤ sqDist xMap yMap pos x :=
                    foldl_min_le_mem _ _ (List.mem_map_of_mem _ hxmem) _
                _ < sqDist xMap yMap pos s := hxlt
            | m + 1 =>
              rw [hgo, List.getD_cons_succ]
              exact hj3 m (by omega)
    · have hgo : closestGo xMap yMap pos (s :: rest) i index dmin =
          closestGo xMap yMap pos rest (i + 1) index dmin := by
        simp [closestGo, hf]
      obtain ⟨ih1, ih2, ih3⟩ := ih (i + 1) index dmin
      refine ⟨?_, ?_, ?_⟩
      · rw [hgo, ih1, List.map_cons, List.foldl_cons,
          min_eq_left (not_lt.mp hf)]
      · intro hall
        rw [hgo]
        exact ih2 fun x hx => hall x (List.mem_cons_of_mem _ hx)
      · rintro ⟨x, hxmem, hxlt⟩
        rcases List.mem_cons.mp hxmem with rfl | hxrest
        · exact absurd hxlt hf
        · obtain ⟨j, hj, hj1, hj2, hj3⟩ := ih3 ⟨x, hxrest, hxlt⟩
          refine ⟨j + 1, by simpa using Nat.succ_lt_succ hj, ?_, ?_, ?_⟩
          · have hic : i + 1 + j = i + (j + 1) := by omega
            rw [hgo, hj1, hic]
          · rw [hgo, List.getD_cons_succ]
            exact hj2
          · intro m hm
            match m with
            | 0 =>
              rw [hgo, ih1, List.getD_cons_zero]
              calc (rest.map (sqDist xMap yMap pos)).foldl min dmin
                  ≤ sqDist xMap yMap pos x :=
                    foldl_min_le_mem _ _ (List.mem_map_of_mem _ hxrest) _
                _ < dmin := hxlt
                _ ≤ sqDist xMap yMap pos s := not_lt.mp hf
            | m + 1 =>
              rw [hgo, List.getD_cons_succ]
              exact hj3 m (by omega)

/-- C5 amended: closestPoint returns (-1, untouched output) when the plot
context is missing or the series is empty; otherwise the scan visits every
sample, the dist output (when supplied) receives the fold of min over ALL
squared distances starting from the sentinel 1.0e10 (the source then
stores its square root), the sentinel index -1 is returned when every
squared distance is at least 1.0e10, and when some squared distance is
below 1.0e10 the returned index is the first sample attaining the minimum
squared distance, which is minimal over the whole series. -/
theorem closestPoint_spec (xMap yMap : ℚ → ℚ) (samples : List PointF)
    (pos : ℚ × ℚ) (distSupplied : Bool) :
    (∀ plotPresent : Bool, plotPresent = false ∨ samples = [] →
      closestPoint plotPresent xMap yMap samples pos distSupplied =
        (-1, none)) ∧
    (samples ≠ [] →
      (closestPoint true xMap yMap samples pos distSupplied).2 =
        (if distSupplied then
          some ((samples.map (sqDist xMap yMap pos)).foldl min (10 ^ 10))
         else none) ∧
      ((∀ s ∈ samples, 10 ^ 10 ≤ sqDist xMap yMap pos s) →
        (closestPoint true xMap yMap samples pos distSupplied).1 = -1) ∧
      ((∃ s ∈ samples, sqDist xMap yMap pos s < 10 ^ 10) →
        ∃ j, j < samples.length ∧
          (closestPoint true xMap yMap samples pos distSupplied).1 =
            (j : Int) ∧
          (∀ s ∈ samples,
            sqDist xMap yMap pos (samples.getD j (0, 0)) ≤
              sqDist xMap yMap pos s) ∧
          ∀ m, m < j →
            sqDist xMap yMap pos (samples.getD j (0, 0)) <
              sqDist xMap yMap pos (samples.getD m (0, 0)))) := by
  constructor
  · rintro pp (rfl | rfl)
    · rfl
    · simp [closestPoint]
  · intro hne
    have hlen : 0 < samples.length := List.length_pos.mpr hne
    have hcp : closestPoint true xMap yMap samples pos distSupplied =
        ((closestGo xMap yMap pos samples 0 (-1) (10 ^ 10)).1,
         if distSupplied then
           some (closestGo xMap yMap pos samples 0 (-1) (10 ^ 10)).2
         else none) := by
      have hle : ¬ samples.length ≤ 0 := by omega
      simp [closestPoint, hle]
    obtain ⟨g1, g2, g3⟩ := closestGo_spec xMap yMap pos samples 0 (-1) (10 ^ 10)
    refine ⟨?_, ?_, ?_⟩
    · rw [hcp, g1]
    · intro hall
      rw [hcp]
      exact g2 hall
    · intro hex
      obtain ⟨j, hj, hj1, hj2, hj3⟩ := g3 hex
      refine ⟨j, hj, ?_, ?_, ?_⟩
      · rw [hcp]
        simpa using hj1
      · intro s hs
        rw [← hj2, g1]
        exact foldl_min_le_mem _ _ (List.mem_map_of_mem _ hs) _
      · intro m hm
        rw [← hj2]
        exact hj3 m hm

/-- C5 witness: no-plot call leaves the output untouched; on a two-sample
series with a plot the dist output receives the capped minimum. -/
theorem closestPoint_spec_witness :
    closestPoint false id id [((0 : ℚ), (0 : ℚ))] ((0 : ℚ), (0 : ℚ)) true =
      (-1, none) ∧
    (closestPoint true id id [((0 : ℚ), (0 : ℚ)), ((3 : ℚ), (4 : ℚ))]
        ((0 : ℚ), (0 : ℚ)) true).2 =
      some (([((0 : ℚ), (0 : ℚ)), ((3 : ℚ), (4 : ℚ))].map
        (sqDist id id ((0 : ℚ), (0 : ℚ)))).foldl min (10 ^ 10)) := by
  constructor
  · exact (closestPoint_spec id id [((0 : ℚ), (0 : ℚ))]
      ((0 : ℚ), (0 : ℚ)) true).1 false (Or.inl rfl)
  · have h := (closestPoint_spec id id
      [((0 : ℚ), (0 : ℚ)), ((3 : ℚ), (4 : ℚ))]
      ((0 : ℚ), (0 : ℚ)) true).2 (by decide)
    simpa using h.1

/-- C5 counterexample: with a plot context and the nonempty series [(0,0)]
under identity scale maps, the device position (100000, 0) has squared
distance exactly 1.0e10, which never beats the initial dmin, so the code
returns the sentinel -1 on a NONEMPTY series and stores sqrt(1.0e10)
through the dist pointer, the claimed behavior being index 0. -/
theorem closestPoint_counterexample :
    closestPoint true id id [((0 : ℚ), (0 : ℚ))]
        ((100000 : ℚ), (0 : ℚ)) true = (-1, some (10 ^ 10)) ∧
    ([((0 : ℚ), (0 : ℚ))] : List PointF).length = 1 := by
  constructor
  · norm_num [closestPoint, closestGo, sqDist, qwtSqr]
  · rfl
